import Mathlib

/-!
Verification of the goscout secret scanner: a shallow embedding of the
scanner (pkg/scanner/scanner.go), the pattern catalog (pkg/patterns),
the chunked log analyzer (pkg/llm/analyzer.go) and the post-scan
severity filter (cmd/main.go), together with theorems settling the
frozen specification claims.

Conventions of the embedding:
- Go strings that are processed character by character (file content
  lines, regex subjects, chunk payloads) are `List Char`; names and
  paths stay `String`.
- Go's `regexp` engine is modelled by a small backtracking matcher
  (`plens`) over an explicit regex AST (`Re`), with Perl-style
  leftmost-first preference order (greedy quantifiers, left alternative
  first), which is the semantics Go's regexp package implements.
  Case-insensitive patterns, `(?i)` in the source, fold ASCII case
  (the catalog's subjects are ASCII).
- `filepath.Walk` is modelled by `walkTree`/`walkList` over an explicit
  filesystem tree `FSTree`; `broken` nodes stand for entries whose
  lstat fails, for which Walk invokes the callback with a non-nil
  error.  Operating-system error text is abstracted away: the recorded
  error strings carry only the fixed format prefixes of the source.
- Fallible operations return `Except String _`.
-/

/-! ### Regex AST and matcher (model of Go regexp for the catalog) -/

/-- Regex AST: character classes are predicates on characters. -/
inductive Re where
  | eps : Re
  | cls : (Char → Bool) → Re
  | cat : Re → Re → Re
  | alt : Re → Re → Re
  | star : Re → Re

/-- Structural size of a regex, used to bound matcher fuel. -/
def reSize : Re → Nat
  | .eps => 1
  | .cls _ => 1
  | .cat a b => reSize a + reSize b + 1
  | .alt a b => reSize a + reSize b + 1
  | .star a => reSize a + 1

/-- Lengths of the prefixes of `s` matched by `r`, in backtracking
preference order (greedy quantifiers first, left alternative first):
the head is the substring a Perl-style engine reports.  `fuel` bounds
the recursion depth; callers supply enough fuel for completeness. -/
def plens : Nat → Re → List Char → List Nat
  | 0, _, _ => []
  | _ + 1, .eps, _ => [0]
  | _ + 1, .cls _, [] => []
  | _ + 1, .cls p, c :: _ => if p c then [1] else []
  | fuel + 1, .cat a b, s =>
      (plens fuel a s).flatMap (fun n => (plens fuel b (s.drop n)).map (n + ·))
  | fuel + 1, .alt a b, s => plens fuel a s ++ plens fuel b s
  | fuel + 1, .star a, s =>
      ((plens fuel a s).filter (0 < ·)).flatMap
        (fun n => (plens fuel (.star a) (s.drop n)).map (n + ·)) ++ [0]

/-- Fuel sufficient for `plens` on subject `s`. -/
def reFuel (r : Re) (s : List Char) : Nat :=
  (s.length + 1) * (reSize r + 1) + 1

/-- Model of `Regexp.MatchString`: the pattern matches somewhere in `s`. -/
def reMatch (r : Re) (s : List Char) : Bool :=
  (List.range (s.length + 1)).any
    (fun i => !(plens (reFuel r s) r (s.drop i)).isEmpty)

/-- Model of `Regexp.FindString`: the leftmost match, preferred-first at
that position; the empty string when there is no match. -/
def reFind (r : Re) (s : List Char) : List Char :=
  match (List.range (s.length + 1)).findSome?
      (fun i => ((plens (reFuel r s) r (s.drop i)).head?).map
        (fun n => (s.drop i).take n)) with
  | some m => m
  | none => []

/-! Combinators used to transcribe the catalog's regular expressions. -/

/-- ASCII lower-casing on character codes, for `(?i)` patterns. -/
def lowerCode (n : Nat) : Nat :=
  if 65 ≤ n ∧ n ≤ 90 then n + 32 else n

/-- Literal character, case-sensitive. -/
def rchar (c : Char) : Re := .cls (fun x => x == c)

/-- Literal character under `(?i)`: ASCII case-insensitive. -/
def rcharI (c : Char) : Re :=
  .cls (fun x => lowerCode x.toNat == lowerCode c.toNat)

/-- Sequence of regexes. -/
def rseq (l : List Re) : Re := l.foldr .cat .eps

/-- Case-sensitive literal string. -/
def rstr (s : String) : Re := rseq (s.toList.map rchar)

/-- Case-insensitive literal string, for `(?i)` patterns. -/
def rstrI (s : String) : Re := rseq (s.toList.map rcharI)

/-- Greedy `r?`. -/
def ropt (r : Re) : Re := .alt r .eps

/-- Greedy `r+`. -/
def rplus (r : Re) : Re := .cat r (.star r)

/-- `r` repeated exactly `n` times. -/
def rrepN (r : Re) (n : Nat) : Re := rseq (List.replicate n r)

/-- Greedy `r` repeated at most `n` times. -/
def rupto (r : Re) : Nat → Re
  | 0 => .eps
  | n + 1 => ropt (.cat r (rupto r n))

/-- Go `r{n,}`. -/
def ratLeast (r : Re) (n : Nat) : Re := .cat (rrepN r n) (.star r)

/-- Go `r{n,m}`. -/
def rrange (r : Re) (n m : Nat) : Re := .cat (rrepN r n) (rupto r (m - n))

/-- Go `\s`: space, tab, newline, form feed, carriage return. -/
def clsSpace : Re :=
  .cls (fun c => c == ' ' || c == '\t' || c == '\n' || c == '\x0c' || c == '\r')

/-- `\s*`. -/
def sstar : Re := .star clsSpace

/-- Character-code range test. -/
def inRange (c : Char) (lo hi : Nat) : Bool :=
  decide (lo ≤ c.toNat ∧ c.toNat ≤ hi)

/-- `[0-9]`. -/
def clsDigit : Re := .cls (fun c => inRange c 48 57)

/-- A letter of either case, the `(?i)` fold of any letter class. -/
def isLetter (c : Char) : Bool := inRange c 65 90 || inRange c 97 122

/-- `[0-9A-Z]` under `(?i)` (folds to letters of either case). -/
def clsUpAlnumI : Re := .cls (fun c => inRange c 48 57 || isLetter c)

/-- `[a-z0-9]` under `(?i)`. -/
def clsAlnumI : Re := .cls (fun c => inRange c 48 57 || isLetter c)

/-- `[a-zA-Z0-9]`. -/
def clsAlnum : Re := .cls (fun c => inRange c 48 57 || isLetter c)

/-- `[A-Za-z0-9_-]` (and its `(?i)` folds). -/
def clsWord : Re :=
  .cls (fun c => inRange c 48 57 || isLetter c || c == '_' || c == '-')

/-- `[_-]`. -/
def clsUD : Re := .cls (fun c => c == '_' || c == '-')

/-- `['\"]`. -/
def clsQuote : Re := .cls (fun c => c == '\'' || c == '\"')

/-- `[^'\"]`. -/
def clsNotQuote : Re := .cls (fun c => !(c == '\'' || c == '\"'))

/-- `[=:]`. -/
def clsEqColon : Re := .cls (fun c => c == '=' || c == ':')

/-- `[A-Za-z0-9/+=]`. -/
def clsB64 : Re :=
  .cls (fun c => inRange c 48 57 || isLetter c || c == '/' || c == '+' || c == '=')

/-- `[A-Z0-9 ]`. -/
def clsUpDigitSpace : Re :=
  .cls (fun c => inRange c 65 90 || inRange c 48 57 || c == ' ')

/-- `[a-f0-9]` under `(?i)`. -/
def clsHexI : Re :=
  .cls (fun c => inRange c 48 57 || inRange c 97 102 || inRange c 65 70)

/-- `[baprs]` under `(?i)`. -/
def clsXoxI : Re :=
  .cls (fun c =>
    let n := lowerCode c.toNat
    n == 98 || n == 97 || n == 112 || n == 114 || n == 115)

/-- `.` (any character but newline). -/
def rdot : Re := .cls (fun c => !(c == '\n'))

/-! ### Pattern catalog (pkg/patterns, `SecretPatterns`) -/

/-- A secret pattern: name, description, compiled regex, severity
("high", "medium" or "low"). -/
structure Pattern where
  Name : String
  Description : String
  Regex : Re
  Severity : String

/-- The fixed catalog, transcribed rule for rule in source order. -/
def SecretPatterns : List Pattern := [
  { Name := "AWS Access Key", Description := "AWS Access Key ID",
    Regex := .cat (rstrI "AKIA") (rrepN clsUpAlnumI 16),
    Severity := "high" },
  { Name := "AWS Secret Key", Description := "AWS Secret Access Key",
    Regex := rseq [rstrI "aws_secret_access_key", sstar, rchar '=', sstar,
      ropt clsQuote, rrepN clsB64 40, ropt clsQuote],
    Severity := "high" },
  { Name := "Private SSH Key", Description := "Private SSH Key",
    Regex := rseq [rstr "-----BEGIN ", rplus clsUpDigitSpace,
      rstr " PRIVATE KEY-----"],
    Severity := "high" },
  { Name := "GitHub Token", Description := "GitHub Personal Access Token",
    Regex := rseq [rstrI "github", ropt clsUD, rstrI "token", sstar,
      rchar '=', sstar, ropt clsQuote, rrepN clsAlnumI 40, ropt clsQuote],
    Severity := "high" },
  { Name := "Generic API Key", Description := "Generic API Key Pattern",
    Regex := rseq [.alt (rseq [rstrI "api", ropt clsUD, rstrI "key"])
        (rstrI "apikey"),
      sstar, clsEqColon, sstar, ropt clsQuote, ratLeast clsWord 20,
      ropt clsQuote],
    Severity := "high" },
  { Name := "Database Password",
    Description := "Database Connection String with Password",
    Regex := rseq [.alt (rstrI "password") (.alt (rstrI "passwd") (rstrI "pwd")),
      sstar, clsEqColon, sstar, clsQuote, rplus clsNotQuote, clsQuote],
    Severity := "high" },
  { Name := "JWT Token", Description := "JWT Token Pattern",
    Regex := rseq [rstr "eyJ", rplus clsWord, rchar '.', rstr "eyJ",
      rplus clsWord, rchar '.', rplus clsWord],
    Severity := "high" },
  { Name := "Slack Token", Description := "Slack API Token",
    Regex := rseq [rstrI "xox", clsXoxI, rchar '-', rrange clsDigit 10 13,
      rchar '-', rrange clsDigit 10 13, .star clsWord],
    Severity := "high" },
  { Name := "Firebase Key", Description := "Firebase API Key",
    Regex := .cat (rstr "AIza") (rrepN clsWord 35),
    Severity := "high" },
  { Name := "Heroku API Key", Description := "Heroku API Key",
    Regex := rseq [rstrI "heroku", ropt clsUD, rstrI "api", ropt clsUD,
      rstrI "key", sstar, clsEqColon, sstar, ropt clsQuote,
      rrepN clsHexI 8, rchar '-', rrepN clsHexI 4, rchar '-',
      rrepN clsHexI 4, rchar '-', rrepN clsHexI 4, rchar '-',
      rrepN clsHexI 12, ropt clsQuote],
    Severity := "high" },
  { Name := "PagerDuty Token", Description := "PagerDuty Integration Key",
    Regex := rseq [rstrI "pagerduty", ropt clsUD, rstrI "token", sstar,
      clsEqColon, sstar, ropt clsQuote, rrepN clsAlnumI 20, ropt clsQuote],
    Severity := "medium" },
  { Name := "Generic Secret", Description := "Generic Secret Variable",
    Regex := rseq [.alt (rstrI "secret") (.alt (rstrI "token")
        (.alt (rstrI "passwd") (rstrI "password"))),
      sstar, clsEqColon, sstar, clsQuote, rplus clsNotQuote, clsQuote],
    Severity := "medium" },
  { Name := "Private Key File", Description := "Private Key File Reference",
    Regex := rseq [.alt (rstrI "private_key") (.alt
        (rseq [rstrI "private", rdot, rstrI "key"])
        (.alt (rstrI "id_rsa") (rstrI "id_ed25519"))),
      sstar, clsEqColon, sstar, ropt clsQuote, rplus clsNotQuote,
      rchar '.', rstrI "key", ropt clsQuote],
    Severity := "high" },
  { Name := "Basic Auth", Description := "HTTP Basic Authentication",
    Regex := rseq [.alt (rstrI "http") (rstrI "https"), rstr "://",
      rplus clsWord, rchar ':', rplus clsWord, rchar '@'],
    Severity := "high" },
  { Name := "Stripe Key", Description := "Stripe API Key",
    Regex := rseq [rstrI "stripe", ropt clsUD,
      .alt (rstrI "api") (.alt (rstrI "secret") (rstrI "public")),
      ropt clsUD, rstrI "key", sstar, clsEqColon, sstar, ropt clsQuote,
      .alt (.cat (rstrI "sk_live_") (ratLeast clsAlnum 24))
           (.cat (rstrI "pk_live_") (ratLeast clsAlnum 24)),
      ropt clsQuote],
    Severity := "high" }
]

/-- `GetPatterns` returns all secret patterns. -/
def GetPatterns : List Pattern := SecretPatterns

/-! ### Matcher (pkg/scanner, `scanFile`) -/

/-- A found secret match (struct `Match`). -/
structure Match where
  FilePath : String
  LineNumber : Nat
  MatchText : List Char
  Pattern : Pattern
  LineContent : List Char

/-- Go `unicode.IsSpace` restricted to ASCII, the cases
`strings.TrimSpace` can meet on the catalog's subjects. -/
def isSpaceGo (c : Char) : Bool :=
  c == ' ' || c == '\t' || c == '\n' || c == '\x0b' || c == '\x0c' || c == '\r'

/-- Model of `strings.TrimSpace`. -/
def trimSpaceGo (l : List Char) : List Char :=
  ((l.dropWhile isSpaceGo).reverse.dropWhile isSpaceGo).reverse

/-- The per-line pattern loop of `scanFile` (lines 241–252): test every
catalog pattern against the line and append one `Match` per hit. -/
def lineLoop (filePath : String) (lineNumber : Nat) (line : List Char)
    (acc : List Match) : List Match :=
  GetPatterns.foldl
    (fun ms p =>
      if reMatch p.Regex line then
        ms ++ [{ FilePath := filePath, LineNumber := lineNumber,
                 MatchText := reFind p.Regex line, Pattern := p,
                 LineContent := line }]
      else ms)
    acc

/-- The line loop of `scanFile` (lines 231–253): `lineNumber` holds the
count of lines already consumed, matching the source's counter that is
incremented before each line is processed. -/
def scanLines (filePath : String) : List (List Char) → Nat → List Match
  | [], _ => []
  | line :: rest, lineNumber =>
      (if (trimSpaceGo line).isEmpty then []
       else lineLoop filePath (lineNumber + 1) line []) ++
      scanLines filePath rest (lineNumber + 1)

/-- `scanFile`: scans a single file for secrets.  `ioError` models the
two I/O failure points of the source (`os.Open` failing, or
`scanner.Err()` reporting a read error), both of which return the error
and no matches. -/
def scanFile (filePath : String) (lines : List (List Char))
    (ioError : Bool) : Except String (List Match) :=
  if ioError then .error ("read " ++ filePath)
  else .ok (scanLines filePath lines 0)

/-! ### Scanner and exclusion policy (pkg/scanner) -/

/-- ScanResult contains all matches found during a scan.  Error values
are modelled by their message strings. -/
structure ScanResult where
  Matches : List Match
  FilesScanned : Nat
  FilesSkipped : Nat
  Errors : List String

/-- Scanner performs the actual scanning.  The Go maps-to-bool are
modelled as lists of keys; `AddExcludeDir`/`AddExcludeFile` insert. -/
structure Scanner where
  excludeDirs : List String
  excludeFiles : List String
  maxFileSize : Nat

/-- `NewScanner` with the default exclusion tables and 10 MB ceiling. -/
def NewScanner : Scanner :=
  { excludeDirs := [".git", ".hg", ".svn", ".bzr", "node_modules",
      "vendor", ".venv", "venv", "env", ".env", "dist", "build",
      "target", ".idea", ".vscode", ".DS_Store"],
    excludeFiles := [".gitignore", ".dockerignore", "package-lock.json",
      "yarn.lock", "go.sum"],
    maxFileSize := 10 * 1024 * 1024 }

/-- `AddExcludeDir` adds a directory to the exclusion list. -/
def AddExcludeDir (s : Scanner) (dir : String) : Scanner :=
  { s with excludeDirs := dir :: s.excludeDirs }

/-- `AddExcludeFile` adds a file to the exclusion list. -/
def AddExcludeFile (s : Scanner) (file : String) : Scanner :=
  { s with excludeFiles := file :: s.excludeFiles }

/-- `SetMaxFileSize` sets the maximum file size to scan. -/
def SetMaxFileSize (s : Scanner) (size : Nat) : Scanner :=
  { s with maxFileSize := size }

/-- `shouldSkipDir` checks if a directory should be skipped. -/
def shouldSkipDir (s : Scanner) (dirName : String) : Bool :=
  s.excludeDirs.contains dirName

/-- The binary-extension table of `isBinaryFile`. -/
def binaryExtensions : List String :=
  [".exe", ".dll", ".so", ".dylib", ".bin", ".o", ".a", ".pyc", ".pyo",
   ".class", ".jar", ".zip", ".tar", ".gz", ".7z", ".rar", ".png",
   ".jpg", ".jpeg", ".gif", ".pdf", ".db", ".sqlite", ".iso"]

/-- The scan of `filepath.Ext`: walk backwards from the end of the path
until a path separator, returning from the first dot found. -/
def extScan : List Char → List Char → List Char
  | [], _ => []
  | c :: rest, acc =>
      if c = '/' then []
      else if c = '.' then '.' :: acc
      else extScan rest (c :: acc)

/-- Model of `filepath.Ext`. -/
def filepathExt (path : String) : List Char := extScan path.toList.reverse []

/-- ASCII lower-casing of a character (`strings.ToLower` on the ASCII
extensions of the table). -/
def lowerChar (c : Char) : Char :=
  if 65 ≤ c.toNat ∧ c.toNat ≤ 90 then Char.ofNat (c.toNat + 32) else c

/-- `isBinaryFile` checks if a file is likely binary, by lower-cased
extension lookup. -/
def isBinaryFile (filePath : String) : Bool :=
  binaryExtensions.contains (String.mk ((filepathExt filePath).map lowerChar))

/-! ### Traversal (pkg/scanner, `ScanPath` over `filepath.Walk`) -/

/-- The filesystem as seen by one walk.  A `file` carries its size, its
lines (as `bufio.Scanner` would deliver them) and whether reading it
fails; `broken` is an entry whose lstat fails, so the walk callback
receives a non-nil error for it and cannot descend. -/
inductive FSTree where
  | file (name : String) (size : Nat) (lines : List (List Char)) (ioError : Bool)
  | dir (name : String) (children : List FSTree)
  | broken (name : String) (isDir : Bool)

/-- Basename of an entry. -/
def FSTree.name : FSTree → String
  | .file n _ _ _ => n
  | .dir n _ => n
  | .broken n _ => n

/-- Whether the walk sees the entry as a directory (`info.IsDir()`). -/
def FSTree.isDirE : FSTree → Bool
  | .dir _ _ => true
  | _ => false

/-- The value a `filepath.WalkFunc` returns: `nil`, `filepath.SkipDir`,
or an error. -/
inductive WalkRet where
  | next : WalkRet
  | skipDir : WalkRet
  | fail : String → WalkRet
deriving DecidableEq

/-- One invocation of the walk callback, as `filepath.Walk` presents
entries to it: an entry whose stat failed (`err != nil`), a directory,
or a file with its attributes. -/
inductive WalkEvent where
  | accessErr (path : String)
  | dirEntry (name : String)
  | fileEntry (path name : String) (size : Nat) (lines : List (List Char))
      (ioError : Bool)

/-- The anonymous walk callback of `ScanPath` (scanner.go lines
114–158), threading the accumulated `ScanResult` explicitly. -/
def walkFn (s : Scanner) (res : ScanResult) (ev : WalkEvent) :
    ScanResult × WalkRet :=
  match ev with
  | .accessErr path =>
      ({ res with Errors := res.Errors ++ ["error accessing " ++ path] },
       .next)
  | .dirEntry name =>
      if shouldSkipDir s name then (res, .skipDir) else (res, .next)
  | .fileEntry path name size lines ioError =>
      if s.excludeFiles.contains name then
        ({ res with FilesSkipped := res.FilesSkipped + 1 }, .next)
      else if isBinaryFile path then
        ({ res with FilesSkipped := res.FilesSkipped + 1 }, .next)
      else if s.maxFileSize < size then
        ({ res with FilesSkipped := res.FilesSkipped + 1 }, .next)
      else
        match scanFile path lines ioError with
        | .error e =>
            ({ res with
               Errors := res.Errors ++ ["error scanning " ++ path ++ ": " ++ e],
               FilesSkipped := res.FilesSkipped + 1 }, .next)
        | .ok ms =>
            ({ res with
               Matches := res.Matches ++ ms,
               FilesScanned := res.FilesScanned + 1 }, .next)

mutual

/-- `filepath.Walk`'s traversal of one entry at `path`, specialised to
the `ScanPath` callback.  For a `broken` entry the callback is invoked
with the access error and `SkipDir` is tolerated, as in the library's
lstat-failure branch. -/
def walkTree (s : Scanner) (t : FSTree) (path : String)
    (res : ScanResult) : ScanResult × WalkRet :=
  match t with
  | .broken _ _ =>
      match walkFn s res (.accessErr path) with
      | (r, .fail e) => (r, .fail e)
      | (r, _) => (r, .next)
  | .file name size lines ioError =>
      walkFn s res (.fileEntry path name size lines ioError)
  | .dir name children =>
      match walkFn s res (.dirEntry name) with
      | (r, .skipDir) => (r, .skipDir)
      | (r, .fail e) => (r, .fail e)
      | (r, .next) => walkList s children path r

/-- The loop of `filepath.Walk` over a read directory: visit each child
in order, stopping on error; `SkipDir` from a directory child skips
just that child, `SkipDir` from a non-directory child skips the rest of
the parent directory. -/
def walkList (s : Scanner) (ts : List FSTree) (dirPath : String)
    (res : ScanResult) : ScanResult × WalkRet :=
  match ts with
  | [] => (res, .next)
  | t :: rest =>
      match walkTree s t (dirPath ++ "/" ++ t.name) res with
      | (r, .fail e) => (r, .fail e)
      | (r, .skipDir) =>
          if t.isDirE then walkList s rest dirPath r else (r, .skipDir)
      | (r, .next) => walkList s rest dirPath r

end

/-- `ScanPath` scans a directory for secrets: run the walk from the
root and propagate only a walk error (`filepath.SkipDir` surfacing at
the top is absorbed, as `filepath.Walk` does). -/
def ScanPath (s : Scanner) (rootPath : String) (root : FSTree) :
    Except String ScanResult :=
  match walkTree s root rootPath
      { Matches := [], FilesScanned := 0, FilesSkipped := 0, Errors := [] } with
  | (_, .fail e) => .error e
  | (res, _) => .ok res

/-! ### Chunker and analysis orchestrator (pkg/llm/analyzer.go) -/

/-- Lines per chunk (`ChunkLines`). -/
def ChunkLines : Nat := 2000

/-- `dropCR` of `bufio.ScanLines`: drop one terminal carriage return. -/
def dropCR (l : List Char) : List Char :=
  match l.getLast? with
  | some '\r' => l.dropLast
  | _ => l

/-- The token stream `bufio.Scanner` with the default `ScanLines` split
produces: tokens are the text between newlines, with one terminal
carriage return dropped; a trailing piece without a final newline is a
token, an empty trailing piece is not.  `acc` holds the current token's
characters in reverse. -/
def splitGo (acc : List Char) : List Char → List (List Char)
  | [] => if acc.isEmpty then [] else [dropCR acc.reverse]
  | c :: rest =>
      if c = '\n' then dropCR acc.reverse :: splitGo [] rest
      else splitGo (c :: acc) rest

/-- The line sequence of a text, as the analyzer's `bufio.Scanner`
delivers it. -/
def splitLinesGo (text : List Char) : List (List Char) := splitGo [] text

/-- The chunk-building loop of `AnalyzeLogFileChunked` (lines 103–124):
append each line plus a newline to the current chunk, flush when the
line count reaches `chunkLines`, and flush a non-empty remainder after
the loop. -/
def chunkLoop (chunkLines : Nat) (chunks : List (List Char))
    (current : List Char) (lineCount : Nat) :
    List (List Char) → List (List Char)
  | [] => if 0 < current.length then chunks ++ [current] else chunks
  | line :: rest =>
      let current := current ++ line ++ ['\n']
      let lineCount := lineCount + 1
      if chunkLines ≤ lineCount then
        chunkLoop chunkLines (chunks ++ [current]) [] 0 rest
      else
        chunkLoop chunkLines chunks current lineCount rest

/-- The Chunker: split a text into chunks of `chunkLines` lines each,
exactly as the loop of `AnalyzeLogFileChunked` does. -/
def chunkify (chunkLines : Nat) (text : List Char) : List (List Char) :=
  chunkLoop chunkLines [] [] 0 (splitLinesGo text)

/-- `buildChunkAnalysisPrompt`: the chunk-specific prompt. -/
def buildChunkAnalysisPrompt (logContent : List Char) (scanSecrets : Bool) :
    String :=
  if scanSecrets then
    "Analyze this log chunk for secrets, errors and information.\nOutput only findings of secrets, errors or general data found, nothing else.\n\nLog:\n" ++
      String.mk logContent
  else
    "Summarize this log chunk. Output only key information found in the logs, no suggestions or recommendations.\n\nLog:\n" ++
      String.mk logContent

/-- The per-chunk dispatch loop of `AnalyzeLogFileChunked` (lines
136–148).  `query` is the inference transport (`queryOllama`): the
outcome of the i-th request, given its prompt — a findings string or an
error.  `i` is the zero-based index of the next chunk and `acc` the
report accumulated so far. -/
def analyzeChunks (query : Nat → String → Except String String)
    (scanSecrets : Bool) (i : Nat) (acc : String) :
    List (List Char) → Except String String
  | [] => .ok acc
  | chunk :: rest =>
      match query i (buildChunkAnalysisPrompt chunk scanSecrets) with
      | .error e =>
          .error ("failed to analyze chunk " ++ toString (i + 1) ++ ": " ++ e)
      | .ok findings =>
          analyzeChunks query scanSecrets (i + 1)
            (acc ++ "=== Chunk " ++ toString (i + 1) ++ " Summary ===\n" ++
              findings ++ "\n\n") rest

/-- `AnalyzeLogFileChunked`: split the text into chunks, reject an
empty chunk list, then query the inference service once per chunk in
order, concatenating the findings under chunk-numbered headings.  The
log file's content is `text` (its reading is modelled by
`splitLinesGo`). -/
def AnalyzeLogFileChunked (query : Nat → String → Except String String)
    (text : List Char) (scanSecrets : Bool) : Except String String :=
  let chunks := chunkify ChunkLines text
  if chunks.length = 0 then .error "log file is empty"
  else analyzeChunks query scanSecrets 0 "" chunks

/-! ### Post-scan severity filter (cmd/main.go, `performSecretsScan`) -/

/-- The severity filter of `performSecretsScan` (main.go lines
142–150): with a non-empty filter value keep exactly the matches whose
pattern severity equals it, appending in order; empty means no
filtering. -/
def filterBySeverity (severity : String) (ms : List Match) :
    List Match :=
  if severity ≠ "" then
    ms.foldl
      (fun filtered m =>
        if m.Pattern.Severity == severity then filtered ++ [m] else filtered)
      []
  else ms

/-! ### Counting vocabulary for the traversal claims -/

mutual

/-- Number of non-directory entries the walk reaches below (and
including) `t`.  With `includeBroken := false` only entries whose
access succeeds are counted (what the scanner can classify); with
`includeBroken := true` non-directory entries whose access fails are
counted as well, which is the reading of the claimed invariant.
Subtrees of excluded directories are never visited and never count. -/
def visitedCount (s : Scanner) (includeBroken : Bool) : FSTree → Nat
  | .file _ _ _ _ => 1
  | .broken _ isDir => if includeBroken ∧ ¬ isDir then 1 else 0
  | .dir name children =>
      if shouldSkipDir s name then 0
      else visitedCountList s includeBroken children

/-- Sum of `visitedCount` over a directory's children. -/
def visitedCountList (s : Scanner) (includeBroken : Bool) :
    List FSTree → Nat
  | [] => 0
  | t :: rest =>
      visitedCount s includeBroken t + visitedCountList s includeBroken rest

end

mutual

/-- Number of `file` entries anywhere below (and including) `t`,
regardless of exclusions — the files that exist on disk. -/
def filesBeneath : FSTree → Nat
  | .file _ _ _ _ => 1
  | .broken _ _ => 0
  | .dir _ children => filesBeneathList children

/-- Sum of `filesBeneath` over a list of entries. -/
def filesBeneathList : List FSTree → Nat
  | [] => 0
  | t :: rest => filesBeneath t + filesBeneathList rest

end

/-! ### Walk invariants -/

/-- Processing one file entry always increments exactly one of the two
counters (`FilesScanned` or `FilesSkipped`) by one, and continues. -/
theorem walkFn_file_delta (s : Scanner) (res : ScanResult)
    (path name : String) (size : Nat) (lines : List (List Char))
    (ioError : Bool) :
    (walkFn s res (.fileEntry path name size lines ioError)).1.FilesScanned +
      (walkFn s res (.fileEntry path name size lines ioError)).1.FilesSkipped
      = res.FilesScanned + res.FilesSkipped + 1
    ∧ (walkFn s res (.fileEntry path name size lines ioError)).2 = .next := by
  simp only [walkFn, scanFile]
  split_ifs <;> simp <;> omega

mutual

/-- Invariant of the walk on one entry: the scanned and skipped
counters grow exactly by the number of reachable files in the entry,
and the callback's return value is `nil`, or `SkipDir` for a directory
entry — never an error. -/
theorem walkTree_inv (s : Scanner) (t : FSTree) (path : String)
    (res : ScanResult) :
    (walkTree s t path res).1.FilesScanned +
        (walkTree s t path res).1.FilesSkipped
      = res.FilesScanned + res.FilesSkipped + visitedCount s false t
    ∧ ((walkTree s t path res).2 = .next ∨
       ((walkTree s t path res).2 = .skipDir ∧ t.isDirE = true)) := by
  match t with
  | .broken n d =>
      simp [walkTree, walkFn, visitedCount]
  | .file n size lines ioError =>
      have h := walkFn_file_delta s res path n size lines ioError
      simp only [walkTree, visitedCount]
      exact ⟨by omega, Or.inl h.2⟩
  | .dir n children =>
      by_cases hskip : shouldSkipDir s n
      · simp [walkTree, walkFn, hskip, visitedCount, FSTree.isDirE]
      · have h := walkList_inv s children path res
        simp only [walkTree, walkFn, hskip, if_neg, visitedCount,
          Bool.false_eq_true]
        simpa [hskip] using ⟨h.1, Or.inl h.2⟩

/-- Invariant of the walk over a list of children: counters grow by the
sum of reachable files, and the loop finishes normally. -/
theorem walkList_inv (s : Scanner) (ts : List FSTree) (dirPath : String)
    (res : ScanResult) :
    (walkList s ts dirPath res).1.FilesScanned +
        (walkList s ts dirPath res).1.FilesSkipped
      = res.FilesScanned + res.FilesSkipped + visitedCountList s false ts
    ∧ (walkList s ts dirPath res).2 = .next := by
  match ts with
  | [] => simp [walkList, visitedCountList]
  | t :: rest =>
      have ht := walkTree_inv s t (dirPath ++ "/" ++ t.name) res
      rcases hw : walkTree s t (dirPath ++ "/" ++ t.name) res with ⟨r, ret⟩
      rw [hw] at ht
      dsimp only at ht
      have hrest := fun r => walkList_inv s rest dirPath r
      rcases ht with ⟨hcount, hret⟩
      rcases hret with hnext | ⟨hskip, hdir⟩
      · subst hnext
        simp only [walkList, hw]
        refine ⟨?_, (hrest r).2⟩
        have := (hrest r).1
        simp only [visitedCountList]
        omega
      · subst hskip
        simp only [walkList, hw, hdir, if_pos]
        refine ⟨?_, (hrest r).2⟩
        have := (hrest r).1
        simp only [visitedCountList]
        omega

end

/-- `ScanPath` always returns the walk's accumulated result: the
callback returns `nil` (or `SkipDir` for directories) in every branch,
so `filepath.Walk` can never surface an error. -/
theorem ScanPath_ok (s : Scanner) (rootPath : String) (t : FSTree) :
    ScanPath s rootPath t =
      .ok (walkTree s t rootPath
        { Matches := [], FilesScanned := 0, FilesSkipped := 0,
          Errors := [] }).1 := by
  have h := (walkTree_inv s t rootPath
    { Matches := [], FilesScanned := 0, FilesSkipped := 0, Errors := [] }).2
  unfold ScanPath
  rcases hw : walkTree s t rootPath
      { Matches := [], FilesScanned := 0, FilesSkipped := 0,
        Errors := [] } with ⟨r, ret⟩
  rw [hw] at h
  dsimp only at h ⊢
  rcases h with h | ⟨h, _⟩ <;> subst h <;> rfl

/-- Tree used to refute C1 as stated: one entry whose access fails. -/
def c1Tree : FSTree := .dir "r" [.broken "f" false]

/-- C1 (counterexample): for a walk that visits one non-directory entry
whose access fails, the entry is recorded as an error only —
`FilesScanned + FilesSkipped` is 0, not the claimed count 1 of visited
non-directory entries. -/
theorem C1_counterexample :
    (ScanPath NewScanner "r" c1Tree).map
        (fun r => r.FilesScanned + r.FilesSkipped) = .ok 0
    ∧ visitedCount NewScanner true c1Tree = 1
    ∧ (0 : Nat) ≠ 1 := by
  refine ⟨rfl, by decide, by decide⟩

/-- C1 (amended): for every run of `ScanPath`, the final result
satisfies `FilesScanned + FilesSkipped` = the number of non-directory
entries visited whose access succeeds, with no double-counting and no
omission; files whose read fails are counted as skipped, but entries
whose access fails are recorded as errors and counted in neither
counter. -/
theorem C1_files_accounting (s : Scanner) (rootPath : String)
    (t : FSTree) :
    ∃ r, ScanPath s rootPath t = .ok r
      ∧ r.FilesScanned + r.FilesSkipped = visitedCount s false t := by
  refine ⟨_, ScanPath_ok s rootPath t, ?_⟩
  have h := (walkTree_inv s t rootPath
    { Matches := [], FilesScanned := 0, FilesSkipped := 0,
      Errors := [] }).1
  simpa using h

/-- C2 (counterexample): for a root whose access fails (the model of a
missing or unreadable root path), `ScanPath` does not abort: it returns
a `ScanResult` (with the failure merely recorded in `Errors`), because
the walk callback swallows the error and returns `nil`. -/
theorem C2_counterexample :
    ScanPath NewScanner "missing" (.broken "missing" true)
      = .ok { Matches := [], FilesScanned := 0, FilesSkipped := 0,
              Errors := ["error accessing missing"] } := rfl

/-- C2 (amended): `ScanPath` never returns a fatal error: for every
root, including one whose access fails, it returns a `ScanResult`; a
root access failure is recorded in the result's error collection (with
an otherwise empty result), and per-entry errors during the walk are
likewise recorded and never abort the traversal.  (The CLI layer
separately rejects nonexistent paths with `os.Stat` before calling
`ScanPath`.) -/
theorem C2_no_fatal_error (s : Scanner) (rootPath : String)
    (t : FSTree) :
    (∃ r, ScanPath s rootPath t = .ok r)
    ∧ ∀ name isDir, ScanPath s rootPath (.broken name isDir)
        = .ok { Matches := [], FilesScanned := 0, FilesSkipped := 0,
                Errors := ["error accessing " ++ rootPath] } :=
  ⟨⟨_, ScanPath_ok s rootPath t⟩, fun _ _ => rfl⟩

/-- Splitting the walk of a directory listing at any point: the suffix
runs from the state the prefix produced, unless the prefix stopped the
listing. -/
theorem walkList_append (s : Scanner) (xs ys : List FSTree)
    (dirPath : String) (res : ScanResult) :
    walkList s (xs ++ ys) dirPath res =
      match walkList s xs dirPath res with
      | (r, .next) => walkList s ys dirPath r
      | other => other := by
  induction xs generalizing res with
  | nil => simp [walkList]
  | cons t rest ih =>
      simp only [List.cons_append, walkList]
      rcases hw : walkTree s t (dirPath ++ "/" ++ t.name) res with ⟨r, ret⟩
      cases ret with
      | next => exact ih r
      | skipDir => cases hd : t.isDirE <;> simp [hd, ih]
      | fail e => rfl

/-- Tree used to refute C3 as stated: a matching file beneath an
excluded directory. -/
def c3Tree : FSTree :=
  .dir "r" [.dir ".git"
    [.file "c.txt" 5 ["password = \"secret1\"".toList] false]]

/-- C3 (counterexample): with one file beneath an excluded `.git`
directory, a scan produces no finding for it, but the file is also not
reflected in `FilesSkipped` (which stays 0, not the claimed 1): the
pruned subtree is never visited and never counted. -/
theorem C3_counterexample :
    (ScanPath NewScanner "r" c3Tree).map
        (fun r => (r.Matches.length, r.FilesScanned, r.FilesSkipped))
      = .ok (0, 0, 0)
    ∧ filesBeneath c3Tree = 1
    ∧ ¬ (1 ≤ (0 : Nat)) := by
  refine ⟨rfl, by decide, by decide⟩

/-- C3 (amended): for every directory whose basename is in the
exclusion set, the walk prunes the entire subtree — it contributes no
finding, no counter increment and no error (the scan result is the
same as if the directory were empty); in particular files beneath it
appear in neither `FilesScanned` nor `FilesSkipped`. -/
theorem C3_excluded_dir_pruned (s : Scanner) (rootPath rootName name : String)
    (pre post children : List FSTree)
    (h : shouldSkipDir s name = true) :
    (∀ path res, walkTree s (.dir name children) path res = (res, .skipDir))
    ∧ ScanPath s rootPath (.dir rootName (pre ++ .dir name children :: post))
        = ScanPath s rootPath (.dir rootName (pre ++ .dir name [] :: post)) := by
  have hskip : ∀ (cs : List FSTree) (path : String) (res : ScanResult),
      walkTree s (.dir name cs) path res = (res, .skipDir) := by
    intro cs path res
    simp [walkTree, walkFn, h]
  refine ⟨hskip children, ?_⟩
  by_cases hroot : shouldSkipDir s rootName
  · unfold ScanPath
    simp [walkTree, walkFn, hroot]
  · unfold ScanPath
    simp only [walkTree, walkFn, hroot, Bool.false_eq_true, if_false]
    rw [walkList_append, walkList_append]
    rcases walkList s pre rootPath
        { Matches := [], FilesScanned := 0, FilesSkipped := 0,
          Errors := [] } with ⟨r, ret⟩
    cases ret with
    | next =>
        simp only [walkList, FSTree.name, hskip, FSTree.isDirE, if_pos]
    | skipDir => rfl
    | fail e => rfl

/-! ### Skip-rule cascade (C6) -/

/-- The three file-level skip rules, in the order the source tests
them. -/
inductive SkipRule where
  | basenameExcluded : SkipRule
  | binaryExtension : SkipRule
  | oversize : SkipRule
deriving DecidableEq

/-- The first skip rule matching a file entry, testing file basename
exclusion, then binary-extension classification, then the size
ceiling — the order of `ScanPath`'s callback (lines 128–144). -/
def firstSkipRule (s : Scanner) (name path : String) (size : Nat) :
    Option SkipRule :=
  if s.excludeFiles.contains name then some .basenameExcluded
  else if isBinaryFile path then some .binaryExtension
  else if s.maxFileSize < size then some .oversize
  else none

/-- C6: the skip rules are evaluated in the fixed order basename
exclusion, binary extension, size ceiling; the first matching rule
alone decides the skip, incrementing `FilesSkipped` by exactly one and
changing nothing else (even when later rules would also match, and even
when the file is unreadable); when no rule matches, the file is scanned
(counted once in `FilesScanned`) or, if reading fails, recorded as an
error and counted once in `FilesSkipped`. -/
theorem C6_skip_rule_order (s : Scanner) (res : ScanResult)
    (path name : String) (size : Nat) (lines : List (List Char))
    (ioError : Bool) :
    (∀ rule, firstSkipRule s name path size = some rule →
        walkFn s res (.fileEntry path name size lines ioError)
          = ({ res with FilesSkipped := res.FilesSkipped + 1 }, .next))
    ∧ (firstSkipRule s name path size = none →
        walkFn s res (.fileEntry path name size lines false)
          = ({ res with
               Matches := res.Matches ++ scanLines path lines 0,
               FilesScanned := res.FilesScanned + 1 }, .next))
    ∧ (firstSkipRule s name path size = none →
        walkFn s res (.fileEntry path name size lines true)
          = ({ res with
               Errors := res.Errors ++
                 ["error scanning " ++ path ++ ": " ++ ("read " ++ path)],
               FilesSkipped := res.FilesSkipped + 1 }, .next)) := by
  unfold firstSkipRule walkFn scanFile
  split_ifs <;> simp_all

/-- Witness for C6: an unreadable `.exe` file is decided by the
binary-extension rule (skipped exactly once, nothing else recorded). -/
theorem C6_witness :
    firstSkipRule NewScanner "x.exe" "r/x.exe" 5 = some .binaryExtension
    ∧ walkFn NewScanner
        { Matches := [], FilesScanned := 0, FilesSkipped := 0, Errors := [] }
        (.fileEntry "r/x.exe" "x.exe" 5 [] true)
      = ({ Matches := [], FilesScanned := 0, FilesSkipped := 1,
           Errors := [] }, .next) := by
  refine ⟨by decide, ?_⟩
  have h := (C6_skip_rule_order NewScanner
    { Matches := [], FilesScanned := 0, FilesSkipped := 0, Errors := [] }
    "r/x.exe" "x.exe" 5 [] true).1 .binaryExtension (by decide)
  simpa using h

/-- Witness for the amended C3: scanning a tree whose `.git` directory
holds a file is the same as scanning it with `.git` empty. -/
theorem C3_witness :
    ScanPath NewScanner "r"
        (.dir "r" [.dir ".git"
          [.file "c.txt" 5 ["password = \"secret1\"".toList] false]])
      = ScanPath NewScanner "r" (.dir "r" [.dir ".git" []]) := by
  have h := (C3_excluded_dir_pruned NewScanner "r" "r" ".git" [] []
    [.file "c.txt" 5 ["password = \"secret1\"".toList] false]
    (by decide)).2
  simpa using h

/-! ### Matcher claims (C7, C8) -/

/-- The findings one line is specified to produce: none for a line that
is empty after trimming, otherwise one finding per matching catalog
pattern, carrying the matched substring and the line's 1-based number. -/
def lineFindings (filePath : String) (n : Nat) (line : List Char) :
    List Match :=
  if (trimSpaceGo line).isEmpty then []
  else
    (GetPatterns.filter (fun p => reMatch p.Regex line)).map
      (fun p =>
        { FilePath := filePath, LineNumber := n,
          MatchText := reFind p.Regex line, Pattern := p,
          LineContent := line })

/-- The pattern loop is the filtered map of the catalog. -/
theorem lineLoop_eq (filePath : String) (n : Nat) (line : List Char) :
    ∀ (ps : List Pattern) (acc : List Match),
      ps.foldl
        (fun ms p =>
          if reMatch p.Regex line then
            ms ++ [{ FilePath := filePath, LineNumber := n,
                     MatchText := reFind p.Regex line, Pattern := p,
                     LineContent := line }]
          else ms) acc
      = acc ++ (ps.filter (fun p => reMatch p.Regex line)).map
          (fun p =>
            { FilePath := filePath, LineNumber := n,
              MatchText := reFind p.Regex line, Pattern := p,
              LineContent := line }) := by
  intro ps
  induction ps with
  | nil => intro acc; simp
  | cons p rest ih =>
      intro acc
      by_cases hm : reMatch p.Regex line
      · simp [List.foldl_cons, hm, ih]
      · simp [List.foldl_cons, hm, ih]

/-- Every match the line loop emits carries the line number it was
called with. -/
theorem lineLoop_lineNumber (filePath : String) (n : Nat)
    (line : List Char) (m : Match)
    (hm : m ∈ lineLoop filePath n line []) : m.LineNumber = n := by
  unfold lineLoop at hm
  rw [lineLoop_eq] at hm
  simp only [List.nil_append, List.mem_map] at hm
  rcases hm with ⟨p, _, rfl⟩
  rfl

/-- Every match `scanLines` emits from the suffix starting after `k`
consumed lines has a line number above `k`. -/
theorem scanLines_lineNumber_gt (filePath : String) :
    ∀ (lines : List (List Char)) (k : Nat) (m : Match),
      m ∈ scanLines filePath lines k → k < m.LineNumber := by
  intro lines
  induction lines with
  | nil => intro k m hm; simp [scanLines] at hm
  | cons line rest ih =>
      intro k m hm
      simp only [scanLines, List.mem_append] at hm
      rcases hm with hm | hm
      · by_cases he : (trimSpaceGo line).isEmpty
        · simp [he] at hm
        · simp only [he, if_false, Bool.false_eq_true] at hm
          have := lineLoop_lineNumber filePath (k + 1) line m hm
          omega
      · have := ih (k + 1) m hm
        omega

/-- Filtering `scanLines` output by a line's number recovers exactly
that line's findings. -/
theorem scanLines_filter_line (filePath : String) :
    ∀ (lines : List (List Char)) (k i : Nat) (h : i < lines.length),
      (scanLines filePath lines k).filter
          (fun m => m.LineNumber == k + i + 1)
        = lineFindings filePath (k + i + 1) (lines.get ⟨i, h⟩) := by
  intro lines
  induction lines with
  | nil => intro k i h; simp at h
  | cons line rest ih =>
      intro k i h
      simp only [scanLines, List.filter_append]
      match i with
      | 0 =>
          have htail : (scanLines filePath rest (k + 1)).filter
              (fun m => m.LineNumber == k + 0 + 1) = [] := by
            rw [List.filter_eq_nil_iff]
            intro m hm
            have := scanLines_lineNumber_gt filePath rest (k + 1) m hm
            simp only [beq_iff_eq]
            omega
          rw [htail]
          by_cases he : (trimSpaceGo line).isEmpty
          · simp [he, lineFindings]
          · simp only [he, Bool.false_eq_true, if_false, List.get]
            unfold lineLoop
            rw [lineLoop_eq]
            simp only [List.nil_append, List.append_nil]
            rw [List.filter_eq_self.mpr]
            · simp [lineFindings, he]
            · intro m hm
              simp only [List.mem_map] at hm
              rcases hm with ⟨p, _, rfl⟩
              simp
      | i + 1 =>
          have hhead : (if (trimSpaceGo line).isEmpty then []
              else lineLoop filePath (k + 1) line []).filter
                (fun m => m.LineNumber == k + (i + 1) + 1) = [] := by
            rw [List.filter_eq_nil_iff]
            intro m hm
            by_cases he : (trimSpaceGo line).isEmpty
            · simp [he] at hm
            · simp only [he, Bool.false_eq_true, if_false] at hm
              have := lineLoop_lineNumber filePath (k + 1) line m hm
              simp only [beq_iff_eq]
              omega
          rw [hhead]
          have h' : i < rest.length := by
            simpa using Nat.lt_of_succ_lt_succ h
          have := ih (k + 1) i h'
          simp only [List.nil_append, List.get]
          rw [show k + (i + 1) + 1 = (k + 1) + i + 1 by omega]
          exact this

/-- C7: the Matcher skips lines that are empty after trimming without
producing anything, and for every other line tests every catalog
pattern, producing one separate finding per matching pattern — a line
matching k patterns yields k findings — each carrying the matched
substring, the pattern, the line content and the correct 1-based line
number. -/
theorem C7_matcher (filePath : String) (lines : List (List Char)) :
    scanFile filePath lines false = .ok (scanLines filePath lines 0)
    ∧ ∀ i (h : i < lines.length),
        (scanLines filePath lines 0).filter
            (fun m => m.LineNumber == i + 1)
          = lineFindings filePath (i + 1) (lines.get ⟨i, h⟩) := by
  refine ⟨rfl, fun i h => ?_⟩
  have := scanLines_filter_line filePath lines 0 i h
  simpa using this

/-- Witness for C7 at a one-line file: filtering the scan by line
number 1 yields exactly that line's specified findings. -/
theorem C7_witness :
    (scanLines "f" ["password = \"secret1\"".toList] 0).filter
        (fun m => m.LineNumber == 0 + 1)
      = lineFindings "f" (0 + 1)
          ((["password = \"secret1\"".toList] : List (List Char)).get
            ⟨0, by decide⟩) :=
  (C7_matcher "f" ["password = \"secret1\"".toList]).2 0 (by decide)

/-- The three lines of the C8 scenario. -/
def c8Line1 : List Char := "password = \"secret1\"".toList

/-- Second line of the C8 scenario. -/
def c8Line2 : List Char := "api_key = \"key123456789\"".toList

/-- Third line of the C8 scenario. -/
def c8Line3 : List Char := "password = \"secret2\"".toList

/-- C8: scanning the three-line file `password = "secret1"` /
`api_key = "key123456789"` / `password = "secret2"` yields at least
three findings (in fact four: lines 1 and 3 each match both the
Database Password and the Generic Secret patterns; line 2's key is
shorter than the Generic API Key pattern's 20-character minimum), each
carrying the correct 1-based line number and the severity of its
matched pattern. -/
theorem C8_three_line_scan :
    scanFile "f" [c8Line1, c8Line2, c8Line3] false
      = .ok (scanLines "f" [c8Line1, c8Line2, c8Line3] 0)
    ∧ (scanLines "f" [c8Line1, c8Line2, c8Line3] 0).map
        (fun m => (m.LineNumber, m.Pattern.Name, m.Pattern.Severity))
      = [(1, "Database Password", "high"), (1, "Generic Secret", "medium"),
         (3, "Database Password", "high"), (3, "Generic Secret", "medium")]
    ∧ 3 ≤ (scanLines "f" [c8Line1, c8Line2, c8Line3] 0).length := by
  refine ⟨rfl, by decide, by decide⟩

/-! ### Severity filter claim (C9) -/

/-- The append-loop of the severity filter is `List.filter`. -/
theorem filter_loop_eq (p : Match → Bool) :
    ∀ (l : List Match) (acc : List Match),
      l.foldl (fun filtered m => if p m then filtered ++ [m] else filtered)
        acc
      = acc ++ l.filter p := by
  intro l
  induction l with
  | nil => intro acc; simp
  | cons m rest ih =>
      intro acc
      by_cases hm : p m
      · simp [List.foldl_cons, hm, ih]
      · simp [List.foldl_cons, hm, ih]

/-- C9: filtering with the non-empty severity value "high" keeps
exactly the matches whose pattern severity is "high" — an in-order
sublist of the original result set, each surviving match identical to
its original (file path, line number, pattern untouched) — and the
empty severity value leaves the result set unfiltered. -/
theorem C9_severity_filter (ms : List Match) :
    filterBySeverity "high" ms
        = ms.filter (fun m => m.Pattern.Severity == "high")
    ∧ (∀ m, m ∈ filterBySeverity "high" ms ↔
        m ∈ ms ∧ m.Pattern.Severity = "high")
    ∧ (filterBySeverity "high" ms).Sublist ms
    ∧ filterBySeverity "" ms = ms := by
  have heq : filterBySeverity "high" ms
      = ms.filter (fun m => m.Pattern.Severity == "high") := by
    unfold filterBySeverity
    rw [if_pos (by decide)]
    simpa using filter_loop_eq (fun m => m.Pattern.Severity == "high") ms []
  refine ⟨heq, fun m => ?_, ?_, ?_⟩
  · rw [heq]
    simp [List.mem_filter]
  · rw [heq]
    exact List.filter_sublist ms
  · unfold filterBySeverity
    simp

/-! ### Chunker claims (C4, C10): characterising the chunk loop -/

/-- Consecutive groups of `N` elements (the last group may be
shorter). -/
def chunksOf {α : Type} (N : Nat) : List α → List (List α)
  | [] => []
  | a :: rest => (a :: rest.take (N - 1)) :: chunksOf N (rest.drop (N - 1))
termination_by l => l.length
decreasing_by simp [List.length_drop]; omega

/-- The payload the chunk loop builds for a group of lines: each line
followed by a newline. -/
def payloadOf (g : List (List Char)) : List Char :=
  g.flatMap (fun l => l ++ ['\n'])

/-- Unfolding `payloadOf` on a cons. -/
theorem payloadOf_cons (l : List Char) (g : List (List Char)) :
    payloadOf (l :: g) = l ++ '\n' :: payloadOf g := by
  simp [payloadOf]

/-- A chunk built from at least one line is nonempty. -/
theorem payloadOf_pos (l : List Char) (g : List (List Char)) :
    0 < (payloadOf (l :: g)).length := by
  simp [payloadOf_cons]

/-- The chunk loop when the remaining lines cannot reach the limit:
everything is folded into the final (possibly absent) chunk. -/
theorem chunkLoop_small (N : Nat) :
    ∀ (lns chunks : List (List Char)) (cur : List Char) (cnt : Nat),
      lns.length + cnt < N →
      chunkLoop N chunks cur cnt lns
        = if 0 < (cur ++ payloadOf lns).length
          then chunks ++ [cur ++ payloadOf lns] else chunks := by
  intro lns
  induction lns with
  | nil =>
      intro chunks cur cnt _
      simp [chunkLoop, payloadOf]
  | cons l rest ih =>
      intro chunks cur cnt h
      simp only [List.length_cons] at h
      simp only [chunkLoop]
      rw [if_neg (by omega)]
      rw [ih _ _ _ (by omega)]
      have hx : cur ++ l ++ ['\n'] ++ payloadOf rest
          = cur ++ payloadOf (l :: rest) := by
        rw [payloadOf_cons]
        simp [List.append_assoc]
      rw [hx]

/-- The chunk loop when the limit is reachable: the first flush closes
a chunk of exactly the lines needed to reach the limit. -/
theorem chunkLoop_flush (N : Nat) :
    ∀ (lns chunks : List (List Char)) (cur : List Char) (cnt : Nat),
      cnt < N → N ≤ lns.length + cnt →
      chunkLoop N chunks cur cnt lns
        = chunkLoop N (chunks ++ [cur ++ payloadOf (lns.take (N - cnt))])
            [] 0 (lns.drop (N - cnt)) := by
  intro lns
  induction lns with
  | nil =>
      intro chunks cur cnt h1 h2
      simp only [List.length_nil, Nat.zero_add] at h2
      omega
  | cons l rest ih =>
      intro chunks cur cnt h1 h2
      simp only [List.length_cons] at h2
      simp only [chunkLoop]
      by_cases hN : N ≤ cnt + 1
      · rw [if_pos hN]
        have hone : N - cnt = 1 := by omega
        rw [hone]
        simp [List.take_succ_cons, List.drop_succ_cons, payloadOf_cons,
          payloadOf, List.append_assoc]
      · rw [if_neg hN]
        rw [ih _ _ _ (by omega) (by omega)]
        obtain ⟨m, hm⟩ : ∃ m, N - cnt = m + 1 := ⟨N - cnt - 1, by omega⟩
        have hm' : N - (cnt + 1) = m := by omega
        rw [hm', hm, List.take_succ_cons, List.drop_succ_cons,
          payloadOf_cons]
        have hx : cur ++ l ++ ['\n'] ++ payloadOf (rest.take m)
            = cur ++ (l ++ '\n' :: payloadOf (rest.take m)) := by
          simp [List.append_assoc]
        rw [hx]

/-- Unfolding `chunksOf` on the empty list. -/
theorem chunksOf_nil {α : Type} (N : Nat) : chunksOf N ([] : List α) = [] := by
  rw [chunksOf]

/-- Unfolding `chunksOf` on a cons. -/
theorem chunksOf_cons {α : Type} (N : Nat) (a : α) (rest : List α) :
    chunksOf N (a :: rest)
      = (a :: rest.take (N - 1)) :: chunksOf N (rest.drop (N - 1)) := by
  rw [chunksOf]

/-- The chunk loop produces exactly the `N`-line groups of its input,
each rendered as a newline-terminated payload. -/
theorem chunkLoop_chunksOf (N : Nat) (hN : 0 < N) (lns : List (List Char)) :
    ∀ chunks, chunkLoop N chunks [] 0 lns
      = chunks ++ (chunksOf N lns).map payloadOf := by
  induction lns using chunksOf.induct N with
  | case1 =>
      intro chunks
      simp [chunkLoop, chunksOf_nil]
  | case2 a rest ih =>
      intro chunks
      by_cases hsmall : rest.length + 1 < N
      · rw [chunkLoop_small N _ _ _ _ (by simp; omega)]
        rw [if_pos (by simpa using payloadOf_pos a rest)]
        have hd : rest.drop (N - 1) = [] :=
          List.drop_eq_nil_of_le (by omega)
        have ht : rest.take (N - 1) = rest :=
          List.take_of_length_le (by omega)
        rw [chunksOf_cons, hd, ht, chunksOf_nil]
        simp
      · obtain ⟨m, hm⟩ : ∃ m, N = m + 1 := ⟨N - 1, by omega⟩
        subst hm
        rw [chunkLoop_flush _ _ _ _ _ hN (by simp; omega)]
        simp only [Nat.sub_zero, List.nil_append, List.take_succ_cons,
          List.drop_succ_cons, Nat.add_sub_cancel] at ih ⊢
        rw [ih (chunks ++ [payloadOf (a :: rest.take m)])]
        rw [chunksOf_cons]
        simp [Nat.add_sub_cancel, List.append_assoc]

/-- The Chunker in closed form: `chunkify` renders the `N`-line groups
of the text's line sequence. -/
theorem chunkify_eq (N : Nat) (hN : 0 < N) (text : List Char) :
    chunkify N text = (chunksOf N (splitLinesGo text)).map payloadOf := by
  unfold chunkify
  simpa using chunkLoop_chunksOf N hN (splitLinesGo text) []

/-- Regrouping loses nothing: flattening the groups restores the
list. -/
theorem chunksOf_flatten {α : Type} (N : Nat) (l : List α) :
    (chunksOf N l).flatMap id = l := by
  induction l using chunksOf.induct N with
  | case1 => simp [chunksOf_nil]
  | case2 a rest ih =>
      rw [chunksOf_cons]
      simp only [List.flatMap_cons, id, ih]
      simp [List.take_append_drop]

/-- Every group is nonempty. -/
theorem chunksOf_ne_nil {α : Type} (N : Nat) (l : List α) :
    ∀ g ∈ chunksOf N l, g ≠ [] := by
  induction l using chunksOf.induct N with
  | case1 => simp [chunksOf_nil]
  | case2 a rest ih =>
      rw [chunksOf_cons]
      intro g hg
      rcases hg with _ | hg
      · simp
      · exact ih g (by assumption)

/-- Group members come from the grouped list. -/
theorem chunksOf_mem_mem {α : Type} (N : Nat) (l : List α) :
    ∀ g ∈ chunksOf N l, ∀ x ∈ g, x ∈ l := by
  induction l using chunksOf.induct N with
  | case1 => simp [chunksOf_nil]
  | case2 a rest ih =>
      rw [chunksOf_cons]
      intro g hg x hx
      rcases hg with _ | hg
      · rcases hx with _ | hx
        · simp
        · simp only [List.mem_cons]
          exact Or.inr (List.mem_of_mem_take (by assumption))
      · simp only [List.mem_cons]
        exact Or.inr (List.mem_of_mem_drop (ih g (by assumption) x hx))

/-- Every group except possibly the last has exactly `N` elements. -/
theorem chunksOf_dropLast_length {α : Type} (N : Nat) (hN : 0 < N)
    (l : List α) : ∀ g ∈ (chunksOf N l).dropLast, g.length = N := by
  induction l using chunksOf.induct N with
  | case1 => simp [chunksOf_nil]
  | case2 a rest ih =>
      rw [chunksOf_cons]
      intro g hg
      rcases hrec : chunksOf N (rest.drop (N - 1)) with _ | ⟨h2, t2⟩
      · rw [hrec] at hg
        simp at hg
      · rw [hrec] at hg
        rw [List.dropLast_cons₂] at hg
        rcases List.mem_cons.mp hg with rfl | hg'
        · have hne : rest.drop (N - 1) ≠ [] := by
            intro hnil
            rw [hnil, chunksOf_nil] at hrec
            exact List.noConfusion hrec
          have hlen : N - 1 < rest.length := by
            by_contra hcon
            push_neg at hcon
            exact hne (List.drop_eq_nil_of_le hcon)
          simp [List.length_take]
          omega
        · exact ih g (by rw [hrec]; exact hg')

/-- `dropCR` only ever removes a character. -/
theorem dropCR_subset (l : List Char) : ∀ x ∈ dropCR l, x ∈ l := by
  unfold dropCR
  split
  · exact fun x hx => (List.dropLast_subset l) hx
  · exact fun x hx => hx

/-- `dropCR` is the identity on carriage-return-free text. -/
theorem dropCR_eq_self (l : List Char) (h : '\r' ∉ l) : dropCR l = l := by
  unfold dropCR
  split
  · next heq =>
      exfalso
      rcases List.mem_getLast?_eq_getLast (l := l) (x := '\r')
          (by rw [heq]; rfl) with ⟨hne, hlast⟩
      exact h (hlast ▸ List.getLast_mem hne)
  · rfl

/-- The tokens `bufio.Scanner` delivers contain no newline. -/
theorem splitGo_no_newline :
    ∀ (text acc : List Char), '\n' ∉ acc →
      ∀ l ∈ splitGo acc text, '\n' ∉ l := by
  intro text
  induction text with
  | nil =>
      intro acc hacc l hl
      simp only [splitGo] at hl
      by_cases he : acc.isEmpty
      · simp [he] at hl
      · simp only [he, Bool.false_eq_true, if_false, List.mem_singleton] at hl
        subst hl
        intro hmem
        exact hacc (by simpa using dropCR_subset acc.reverse '\n' hmem)
  | cons c rest ih =>
      intro acc hacc l hl
      simp only [splitGo] at hl
      by_cases hc : c = '\n'
      · rw [if_pos hc] at hl
        rcases List.mem_cons.mp hl with rfl | hl'
        · intro hmem
          exact hacc (by simpa using dropCR_subset acc.reverse '\n' hmem)
        · exact ih [] (by simp) l hl'
      · rw [if_neg hc] at hl
        exact ih (c :: acc) (by simp [hacc, hc]; exact fun x => hc x.symm) l hl

/-- The line sequence of a chunk payload, read back by splitting at
newlines (payloads are newline-terminated by construction, so there is
no trailing piece; an empty trailing piece yields no line).  `acc`
holds the current line's characters in reverse. -/
def splitNL (acc : List Char) : List Char → List (List Char)
  | [] => if acc.isEmpty then [] else [acc.reverse]
  | c :: rest =>
      if c = '\n' then acc.reverse :: splitNL [] rest
      else splitNL (c :: acc) rest

/-- The line sequence of a chunk payload. -/
def payloadLines (p : List Char) : List (List Char) := splitNL [] p

/-- Splitting off one newline-terminated line. -/
theorem splitNL_line (rest : List Char) :
    ∀ (l acc : List Char), '\n' ∉ l →
      splitNL acc (l ++ '\n' :: rest)
        = (acc.reverse ++ l) :: splitNL [] rest := by
  intro l
  induction l with
  | nil => intro acc _; simp [splitNL]
  | cons c l' ih =>
      intro acc h
      have hc : ¬ (c = '\n') := fun hcc => h (by simp [hcc])
      simp only [List.cons_append, splitNL, if_neg hc]
      show splitNL (c :: acc) (l' ++ '\n' :: rest)
        = (acc.reverse ++ c :: l') :: splitNL [] rest
      rw [ih (c :: acc) (fun hm => h (List.mem_cons_of_mem c hm))]
      simp

/-- Reading a payload back yields exactly the lines it was built
from. -/
theorem payloadLines_payloadOf :
    ∀ (g : List (List Char)), (∀ x ∈ g, '\n' ∉ x) →
      payloadLines (payloadOf g) = g := by
  intro g
  induction g with
  | nil => intro _; rfl
  | cons x g' ih =>
      intro h
      rw [payloadOf_cons]
      unfold payloadLines
      rw [splitNL_line (payloadOf g') x [] (h x (List.mem_cons_self x g'))]
      simp only [List.reverse_nil, List.nil_append]
      rw [show splitNL [] (payloadOf g') = payloadLines (payloadOf g')
          from rfl]
      rw [ih (fun y hy => h y (List.mem_cons_of_mem x hy))]

/-- C4: for any text split by the Chunker with a positive line limit
`N`, every chunk except possibly the last holds exactly `N` lines, the
trailing partial chunk is never dropped and never empty, concatenating
the chunks' line sequences in order reproduces the text's line sequence
exactly, and an empty text produces zero chunks. -/
theorem C4_chunker (N : Nat) (hN : 0 < N) (text : List Char) :
    (∀ c ∈ (chunkify N text).dropLast, (payloadLines c).length = N)
    ∧ (chunkify N text).flatMap payloadLines = splitLinesGo text
    ∧ (∀ c ∈ chunkify N text, payloadLines c ≠ [])
    ∧ (text = [] → chunkify N text = []) := by
  have hsplit : ∀ l ∈ splitLinesGo text, '\n' ∉ l :=
    splitGo_no_newline text [] (by simp)
  have hgrp : ∀ g ∈ chunksOf N (splitLinesGo text),
      payloadLines (payloadOf g) = g := by
    intro g hg
    exact payloadLines_payloadOf g
      (fun x hx => hsplit x (chunksOf_mem_mem N _ g hg x hx))
  rw [chunkify_eq N hN]
  refine ⟨?_, ?_, ?_, ?_⟩
  · intro c hc
    rw [← List.map_dropLast] at hc
    rcases List.mem_map.mp hc with ⟨g, hgmem, rfl⟩
    rw [hgrp g (List.dropLast_subset _ hgmem)]
    exact chunksOf_dropLast_length N hN _ g hgmem
  · rw [List.flatMap_map]
    have hcong : ∀ (gs : List (List (List Char))),
        (∀ g ∈ gs, payloadLines (payloadOf g) = g) →
        (gs.flatMap fun g => payloadLines (payloadOf g)) = gs.flatMap id := by
      intro gs
      induction gs with
      | nil => intro _; rfl
      | cons g gs' ihg =>
          intro hall
          simp only [List.flatMap_cons]
          rw [hall g (List.mem_cons_self g gs'),
            ihg (fun g' hg' => hall g' (List.mem_cons_of_mem g hg'))]
          rfl
    rw [hcong _ hgrp, chunksOf_flatten]
  · intro c hc
    rcases List.mem_map.mp hc with ⟨g, hgmem, rfl⟩
    rw [hgrp g hgmem]
    exact chunksOf_ne_nil N _ g hgmem
  · intro ht
    subst ht
    rw [show splitLinesGo [] = [] from rfl, chunksOf_nil]
    rfl

/-- Witness for C4 at `N = 2` on a three-line text. -/
theorem C4_witness :
    (chunkify 2 "a\nb\nc".toList).flatMap payloadLines
      = splitLinesGo "a\nb\nc".toList
    ∧ (0 : Nat) < 2 :=
  ⟨(C4_chunker 2 (by decide) "a\nb\nc".toList).2.1, by decide⟩

/-- Every chunk payload ends with a newline. -/
theorem payloadOf_getLast :
    ∀ (g : List (List Char)), g ≠ [] →
      (payloadOf g).getLast? = some '\n' := by
  intro g
  induction g with
  | nil => intro h; exact absurd rfl h
  | cons x g' ih =>
      intro _
      rw [payloadOf_cons, List.getLast?_append]
      cases g' with
      | nil => simp [payloadOf]
      | cons y ys =>
          have hin : ('\n' :: payloadOf (y :: ys)).getLast? = some '\n' := by
            rw [show ('\n' :: payloadOf (y :: ys))
                = ['\n'] ++ payloadOf (y :: ys) from rfl,
              List.getLast?_append, ih (by simp)]
            rfl
          rw [hin]
          rfl

/-- What joining the token stream back with newlines produces, for
carriage-return-free text: the text itself, newline-terminated. -/
theorem payloadOf_splitGo :
    ∀ (text acc : List Char), '\r' ∉ text → '\r' ∉ acc →
      payloadOf (splitGo acc text)
        = if text.isEmpty then
            (if acc.isEmpty then [] else acc.reverse ++ ['\n'])
          else acc.reverse ++ text ++
            (if text.getLast? = some '\n' then [] else ['\n']) := by
  intro text
  induction text with
  | nil =>
      intro acc _ h2
      simp only [splitGo, List.isEmpty_nil, if_pos]
      by_cases he : acc.isEmpty
      · simp [he, payloadOf]
      · simp only [he, Bool.false_eq_true, if_false]
        rw [dropCR_eq_self _ (by simpa using h2)]
        simp [payloadOf]
  | cons c rest ih =>
      intro acc h1 h2
      have hrest : '\r' ∉ rest := fun h => h1 (List.mem_cons_of_mem c h)
      by_cases hc : c = '\n'
      · subst hc
        simp only [splitGo, if_true]
        rw [payloadOf_cons]
        rw [dropCR_eq_self _ (by simpa using h2)]
        rw [ih [] hrest (by simp)]
        cases rest with
        | nil => simp
        | cons d ds =>
            rw [List.getLast?_cons_cons]
            simp [List.append_assoc]
      · simp only [splitGo, if_neg hc]
        have hacc : '\r' ∉ c :: acc := by
          intro hm
          rcases List.mem_cons.mp hm with hm | hm
          · exact h1 (by simp [hm.symm])
          · exact h2 hm
        rw [ih (c :: acc) hrest hacc]
        cases rest with
        | nil =>
            simp only [List.isEmpty_nil, if_pos, List.isEmpty_cons,
              List.isEmpty_iff, List.cons_ne_nil, Bool.false_eq_true,
              if_false, List.reverse_cons]
            have : ¬ (([c] : List Char).getLast? = some '\n') := by
              simp [hc]
            rw [if_neg this]
        | cons d ds =>
            simp only [List.isEmpty_cons, Bool.false_eq_true, if_false,
              List.reverse_cons]
            rw [List.getLast?_cons_cons]
            simp [List.append_assoc]

/-- C10 (counterexample): for the newline-terminated input "a\r\n",
the concatenation of the chunk payloads is "a\n", not the input —
`bufio.ScanLines` drops the carriage return before the newline, so the
byte-level round trip fails even for newline-terminated inputs. -/
theorem C10_counterexample :
    List.getLast? ['a', '\r', '\n'] = some '\n'
    ∧ (chunkify ChunkLines ['a', '\r', '\n']).flatMap id = ['a', '\n']
    ∧ (['a', '\n'] : List Char) ≠ ['a', '\r', '\n'] := by
  refine ⟨rfl, by decide, by decide⟩

/-- C10 (amended): every chunk payload ends with a newline, and for
carriage-return-free input the byte-level concatenation of the chunk
payloads equals the input when the input is newline-terminated, the
input with exactly one newline appended when it is nonempty and not
newline-terminated, and is empty for empty input (carriage returns
before line ends are dropped by the line scanner, so the byte-level
round trip holds exactly only for such inputs; the line-sequence round
trip of C4 holds for all inputs). -/
theorem C10_payload_roundtrip (N : Nat) (hN : 0 < N) (text : List Char)
    (hr : '\r' ∉ text) :
    (∀ c ∈ chunkify N text, c.getLast? = some '\n')
    ∧ (chunkify N text).flatMap id
        = if text.isEmpty then []
          else text ++ (if text.getLast? = some '\n' then [] else ['\n']) := by
  rw [chunkify_eq N hN]
  constructor
  · intro c hc
    rcases List.mem_map.mp hc with ⟨g, hgmem, rfl⟩
    exact payloadOf_getLast g (chunksOf_ne_nil N _ g hgmem)
  · rw [List.flatMap_map]
    have hpapp : ∀ (a b : List (List Char)),
        payloadOf (a ++ b) = payloadOf a ++ payloadOf b := by
      intro a b
      simp [payloadOf]
    have hdist : ∀ (gs : List (List (List Char))),
        (gs.flatMap fun g => payloadOf g) = payloadOf (gs.flatMap id) := by
      intro gs
      induction gs with
      | nil => rfl
      | cons g gs' ihg =>
          simp only [List.flatMap_cons, id]
          rw [hpapp, ihg]
    simp only [id]
    rw [hdist, chunksOf_flatten]
    have h := payloadOf_splitGo text [] hr (by simp)
    simpa using h

/-- Witness for the amended C10: a two-character input without a final
newline round-trips with exactly one newline appended. -/
theorem C10_witness :
    (chunkify 1 ['a', 'b']).flatMap id = ['a', 'b', '\n'] := by
  have h := (C10_payload_roundtrip 1 (by decide) ['a', 'b'] (by decide)).2
  rw [h]
  decide

/-! ### Orchestrator claim (C5) -/

/-- The aggregated report for per-chunk findings `f` over `n` chunks:
chunk-numbered headings in ascending order 1..n, concatenated exactly
as the dispatch loop accumulates them. -/
def chunkReport (f : Nat → String) (n : Nat) : String :=
  (List.range' 0 n).foldl
    (fun a k => a ++ "=== Chunk " ++ toString (k + 1) ++
      " Summary ===\n" ++ f k ++ "\n\n") ""

/-- The dispatch loop when every remaining query succeeds: the
accumulated report grows by one heading-tagged section per chunk, in
order. -/
theorem analyzeChunks_ok (q : Nat → String → Except String String)
    (ss : Bool) (f : Nat → String) :
    ∀ (cs : List (List Char)) (i : Nat) (acc : String),
      (∀ k (h : k < cs.length),
        q (i + k) (buildChunkAnalysisPrompt (cs.get ⟨k, h⟩) ss)
          = .ok (f (i + k))) →
      analyzeChunks q ss i acc cs
        = .ok ((List.range' i cs.length).foldl
            (fun a k => a ++ "=== Chunk " ++ toString (k + 1) ++
              " Summary ===\n" ++ f k ++ "\n\n") acc) := by
  intro cs
  induction cs with
  | nil =>
      intro i acc _
      rfl
  | cons c rest ih =>
      intro i acc hq
      have h0 := hq 0 (Nat.succ_pos rest.length)
      simp only [List.get, Nat.add_zero] at h0
      simp only [analyzeChunks, h0, List.length_cons, List.range'_succ,
        List.foldl_cons]
      exact ih (i + 1) _ (fun k h => by
        have h2 := hq (k + 1) (Nat.succ_lt_succ h)
        rw [List.get_cons_succ] at h2
        have he : i + (k + 1) = i + 1 + k := by omega
        rw [he] at h2
        exact h2)

/-- The dispatch loop when the queries for the first `j` chunks succeed
and the query for chunk `j` fails: the loop aborts with that chunk's
error and produces no report. -/
theorem analyzeChunks_fail (q : Nat → String → Except String String)
    (ss : Bool) :
    ∀ (cs : List (List Char)) (i : Nat) (acc : String) (j : Nat)
      (e : String) (hj : j < cs.length),
      (∀ k (hk : k < j), ∃ r, q (i + k)
        (buildChunkAnalysisPrompt (cs.get ⟨k, Nat.lt_trans hk hj⟩) ss)
          = .ok r) →
      q (i + j) (buildChunkAnalysisPrompt (cs.get ⟨j, hj⟩) ss) = .error e →
      analyzeChunks q ss i acc cs
        = .error ("failed to analyze chunk " ++ toString (i + j + 1)
            ++ ": " ++ e) := by
  intro cs
  induction cs with
  | nil =>
      intro i acc j e hj _ _
      simp at hj
  | cons c rest ih =>
      intro i acc j e hj hok herr
      match j with
      | 0 =>
          simp only [List.get, Nat.add_zero] at herr
          simp only [analyzeChunks, herr, Nat.add_zero]
      | j + 1 =>
          rcases hok 0 (Nat.succ_pos j) with ⟨r, hr⟩
          simp only [List.get, Nat.add_zero] at hr
          simp only [analyzeChunks, hr]
          have hj' : j < rest.length := Nat.lt_of_succ_lt_succ hj
          have herr' : q (i + 1 + j)
              (buildChunkAnalysisPrompt (rest.get ⟨j, hj'⟩) ss)
                = .error e := by
            rw [List.get_cons_succ] at herr
            have he : i + (j + 1) = i + 1 + j := by omega
            rw [he] at herr
            exact herr
          have hok' : ∀ k (hk : k < j), ∃ r2, q (i + 1 + k)
              (buildChunkAnalysisPrompt
                (rest.get ⟨k, Nat.lt_trans hk hj'⟩) ss) = .ok r2 := by
            intro k hk
            rcases hok (k + 1) (Nat.succ_lt_succ hk) with ⟨r2, hr2⟩
            rw [List.get_cons_succ] at hr2
            have he : i + (k + 1) = i + 1 + k := by omega
            rw [he] at hr2
            exact ⟨r2, hr2⟩
          have he : i + (j + 1) + 1 = i + 1 + j + 1 := by omega
          rw [he]
          exact ih (i + 1) _ j e hj' hok' herr'

/-- C5: the chunked analysis treats zero chunks as the explicit
"log file is empty" error; a failing query for any chunk (after the
earlier chunks succeeded) makes the whole operation return that error,
with no aggregated output; and when every query succeeds the result is
the concatenation of per-chunk findings under chunk-numbered headings
in ascending order 1..N. -/
theorem C5_all_or_nothing (q : Nat → String → Except String String)
    (ss : Bool) (text : List Char) :
    (chunkify ChunkLines text = [] →
      AnalyzeLogFileChunked q text ss = .error "log file is empty")
    ∧ (∀ j e (hj : j < (chunkify ChunkLines text).length),
        (∀ k (hk : k < j), ∃ r, q k (buildChunkAnalysisPrompt
          ((chunkify ChunkLines text).get ⟨k, Nat.lt_trans hk hj⟩) ss)
            = .ok r) →
        q j (buildChunkAnalysisPrompt
          ((chunkify ChunkLines text).get ⟨j, hj⟩) ss) = .error e →
        AnalyzeLogFileChunked q text ss
          = .error ("failed to analyze chunk " ++ toString (j + 1)
              ++ ": " ++ e))
    ∧ (∀ f : Nat → String,
        chunkify ChunkLines text ≠ [] →
        (∀ k (h : k < (chunkify ChunkLines text).length),
          q k (buildChunkAnalysisPrompt
            ((chunkify ChunkLines text).get ⟨k, h⟩) ss) = .ok (f k)) →
        AnalyzeLogFileChunked q text ss
          = .ok (chunkReport f (chunkify ChunkLines text).length)) := by
  refine ⟨?_, ?_, ?_⟩
  · intro h
    unfold AnalyzeLogFileChunked
    rw [h]
    rfl
  · intro j e hj hok herr
    unfold AnalyzeLogFileChunked
    rw [if_neg (by intro h0; omega)]
    have := analyzeChunks_fail q ss (chunkify ChunkLines text) 0 "" j e hj
      (fun k hk => by simpa using hok k hk)
      (by simpa using herr)
    simpa using this
  · intro f hne hok
    unfold AnalyzeLogFileChunked
    rw [if_neg (by simpa [List.length_eq_zero] using hne)]
    have := analyzeChunks_ok q ss f (chunkify ChunkLines text) 0 ""
      (fun k h => by simpa using hok k h)
    simpa [chunkReport] using this

/-- Witness for C5: a one-chunk success produces the single
heading-tagged section, and an empty text the explicit error. -/
theorem C5_witness :
    AnalyzeLogFileChunked (fun _ _ => .ok "F") ['a'] true
      = .ok "=== Chunk 1 Summary ===\nF\n\n"
    ∧ AnalyzeLogFileChunked (fun _ _ => .ok "F") [] true
      = .error "log file is empty" := by
  constructor
  · have h := (C5_all_or_nothing (fun _ _ => .ok "F") true ['a']).2.2
      (fun _ => "F") (by decide) (fun k h => rfl)
    rw [h, show chunkReport (fun _ => "F")
        (chunkify ChunkLines ['a']).length
      = "=== Chunk 1 Summary ===\nF\n\n" from by decide]
  · exact (C5_all_or_nothing (fun _ _ => .ok "F") true []).1 rfl
